import Mathlib

/-!
Shallow embedding of the price/name extraction heuristic of `src/main.py`
(`parse_price` and its helper `number_after`, lines 88-129), together with
proofs of the specification claims about it.

Modelling conventions:
* Python strings are Lean `String`s; most functions work on `List Char`
  (`String.data`).
* Python `float` values produced by the parser are modelled as `ℚ`.  Every
  numeric token the parser accepts has 2-6 integer digits and at most two
  decimal digits, so its value is an exact decimal rational; distinct such
  rationals are distinct IEEE doubles and the order is the same, hence `ℚ`
  is a faithful model of the comparisons, dedup and max/min the code does.
* `str.lower` is modelled on the ASCII range (upper-case A-Z map to a-z);
  `str.strip`, regex `\s` and `str.splitlines` use the Python whitespace /
  line-terminator character sets (given by code point below).
* The two regexes are translated to deterministic scanners.  Both regexes
  have the form  prefix? ws* ... ([0-9]{2,6}(\.[0-9]{1,2})?)  in which the
  character classes (whitespace, `:`/`-`, the rupee sign, digits, `.`) are
  pairwise disjoint, so greedy matching without backtracking inside a
  position is equivalent to Python's backtracking search; alternatives are
  tried in order at each position and the scan advances one character on
  failure, exactly like `re.search` / `re.findall`.
-/

namespace ShopOCR

/-- Code points of the characters Python's `str.strip`, `str.isspace` and the
regex class `\s` treat as whitespace (the three notions coincide; the set
includes the information separators 28-31). -/
def wsCodes : List Nat :=
  [9, 10, 11, 12, 13, 28, 29, 30, 31, 32, 133, 160, 5760,
   8192, 8193, 8194, 8195, 8196, 8197, 8198, 8199, 8200, 8201, 8202,
   8232, 8233, 8239, 8287, 12288]

/-- Code points of the characters Python's `str.splitlines` treats as line
terminators (besides the two-character sequence CR LF). -/
def termCodes : List Nat := [10, 11, 12, 13, 28, 29, 30, 133, 8232, 8233]

def pyIsSpace (c : Char) : Bool := wsCodes.contains c.toNat

def pyIsTerm (c : Char) : Bool := termCodes.contains c.toNat

def isDigitCh (c : Char) : Bool := 48 ≤ c.toNat && c.toNat ≤ 57

/-- Python `str.lower`, restricted to the ASCII letters. -/
def pyToLower (c : Char) : Char :=
  if 65 ≤ c.toNat ∧ c.toNat ≤ 90 then Char.ofNat (c.toNat + 32) else c

def pyLowerL (s : List Char) : List Char := s.map pyToLower

def chars (s : String) : List Char := s.data

/-- Leading-whitespace removal (the left half of Python `str.strip`). -/
def stripLead (s : List Char) : List Char := s.dropWhile pyIsSpace

/-- Trailing-whitespace removal (the right half of Python `str.strip`). -/
def stripTrail (s : List Char) : List Char := (s.reverse.dropWhile pyIsSpace).reverse

/-- Python `str.strip`. -/
def pyStripL (s : List Char) : List Char := stripTrail (stripLead s)

def pyStrip (s : String) : String := String.mk (pyStripL s.data)

/-- Worker for Python `str.splitlines`: `cur` is the reversed current line.
A CR LF pair counts as a single terminator; a terminator at the very end of
the string does not open a new (empty) line. -/
def slGo : List Char → List Char → List (List Char)
  | [], cur => [cur.reverse]
  | '\r' :: '\n' :: rest, cur =>
      cur.reverse :: (match rest with | [] => [] | _ :: _ => slGo rest [])
  | c :: rest, cur =>
      if pyIsTerm c then
        cur.reverse :: (match rest with | [] => [] | _ :: _ => slGo rest [])
      else slGo rest (c :: cur)

/-- Lines following a line terminator: empty input contributes no line. -/
def slTail (r : List Char) : List (List Char) :=
  match r with
  | [] => []
  | _ :: _ => slGo r []

/-- Python `str.splitlines` (`"".splitlines() = []`). -/
def pySplitlines (s : List Char) : List (List Char) :=
  match s with
  | [] => []
  | _ :: _ => slGo s []

/-- The line list `[l.strip() for l in text.splitlines() if l.strip()]`. -/
def pyLinesL (s : List Char) : List (List Char) :=
  ((pySplitlines s).map pyStripL).filter (fun l => !l.isEmpty)

/-- Longest whitespace prefix removed, regex `\s*`. -/
def skipWs (s : List Char) : List Char := s.dropWhile pyIsSpace

/-- Literal-prefix match, returning the remainder on success. -/
def stripPrefixL : List Char → List Char → Option (List Char)
  | [], s => some s
  | _ :: _, [] => none
  | k :: ks, c :: cs => if k = c then stripPrefixL ks cs else none

def startsWithL (k s : List Char) : Bool := (stripPrefixL k s).isSome

/-- Substring containment, Python `k in s`. -/
def containsSub (k : List Char) : List Char → Bool
  | [] => startsWithL k []
  | c :: cs => startsWithL k (c :: cs) || containsSub k cs

/-- Value of a digit string as a natural number (`float` accepts leading
zeros, e.g. `"0012"` is `12`). -/
def digitsVal (ds : List Char) : Nat := ds.foldl (fun a c => 10 * a + (c.toNat - 48)) 0

/-- The optional decimal part `(?:\.[0-9]{1,2})?` of the numeric token,
greedy: if the remaining input starts with a decimal point followed by at
least one digit, consume the point and one or two fractional digits and add
their value; otherwise the match ends after the integer digits. -/
def decPart (I : ℚ) (rest : List Char) : ℚ × List Char :=
  match rest with
  | [] => (I, [])
  | c :: t =>
    if c = '.' then
      match t.takeWhile isDigitCh with
      | [] => (I, c :: t)
      | f :: fs =>
        (I + (digitsVal ((f :: fs).take 2) : ℚ) / ((10 : ℚ) ^ ((f :: fs).take 2).length),
         (f :: fs).drop 2 ++ t.dropWhile isDigitCh)
    else (I, c :: t)

/-- The numeric-token regex `[0-9]{2,6}(?:\.[0-9]{1,2})?` anchored at the
head of `s`: greedily take up to six digits (at least two required), then the
optional decimal part.  Returns the token value and the remainder of the
input after the match. -/
def matchNum (s : List Char) : Option (ℚ × List Char) :=
  let ds := s.takeWhile isDigitCh
  if ds.length < 2 then none
  else some (decPart (digitsVal (ds.take 6) : ℚ) (ds.drop 6 ++ s.dropWhile isDigitCh))

/-- The optional separator `[:\-]?`, greedy. -/
def sepOpt : List Char → List Char
  | c :: cs => if c = ':' ∨ c = '-' then cs else c :: cs
  | [] => []

/-- The optional rupee sign `₹?`, greedy. -/
def rupeeOpt : List Char → List Char
  | c :: cs => if c = '₹' then cs else c :: cs
  | [] => []

/-- The part of the `number_after` regex that follows a matched keyword:
`\s*[:\-]?\s*₹?\s*` and then the numeric token.  Since whitespace, the
separators, the rupee sign and digits are pairwise disjoint character
classes, the greedy left-to-right reading is equivalent to the regex. -/
def afterKw (s : List Char) : Option ℚ :=
  (matchNum (skipWs (rupeeOpt (skipWs (sepOpt (skipWs s)))))).map Prod.fst

/-- Character match for a (lower-case ASCII) keyword character under the
source's `re.search(..., re.IGNORECASE)` on the lower-cased text.  The text
contains no ASCII upper-case letters after lowering, and the only Unicode
case-equivalences of the keyword letters that survive `str.lower` are the
long s `ſ` (U+017F) for `s` and the dotless i `ı` (U+0131) for `i`. -/
def kwChEq (k c : Char) : Bool :=
  k = c || (k = 's' && c = 'ſ') || (k = 'i' && c = 'ı')

/-- Keyword-prefix match under `kwChEq`, returning the remainder on
success.  Only the keyword search uses it: the fallback `re.findall` of
line 110 is compiled without `re.IGNORECASE`, so its currency prefixes
match literally. -/
def stripKwPrefix : List Char → List Char → Option (List Char)
  | [], s => some s
  | _ :: _, [] => none
  | k :: ks, c :: cs => if kwChEq k c = true then stripKwPrefix ks cs else none

/-- One `re.search` attempt at the current position: the keyword alternatives
are tried in order, each followed by the full continuation (Python backtracks
into later alternatives when the continuation fails). -/
def tryKwsAt (kws : List (List Char)) (s : List Char) : Option ℚ :=
  kws.findSome? fun kw => (stripKwPrefix kw s).bind afterKw

/-- `re.search` of the `number_after` pattern: leftmost position wins. -/
def searchKws (kws : List (List Char)) : List Char → Option ℚ
  | [] => none
  | c :: cs =>
    match tryKwsAt kws (c :: cs) with
    | some v => some v
    | none => searchKws kws cs

def mrpKws : List (List Char) := [chars "mrp", chars "m.r.p", chars "max retail", chars "price mrp"]

def sellKws : List (List Char) :=
  [chars "sell", chars "sale", chars "sp", chars "selling", chars "offer", chars "now", chars "our price"]

/-- `number_after(keyword_variants)` of the source, as a function of the
lower-cased text (the `try/except` around `float` can never fire, since every
matched token is a well-formed decimal literal). -/
def number_after (kws : List (List Char)) (lowerText : List Char) : Option ℚ :=
  searchKws kws lowerText

/-- The alternatives of the optional currency prefix `(?:rs\.?|inr|₹)?` of
the fallback pattern, in the order the regex tries them (`rs\.?` greedily
prefers to take the dot). -/
def currencyKws : List (List Char) := [chars "rs.", chars "rs", chars "inr", chars "₹"]

/-- One `re.findall` attempt of `(?:rs\.?|inr|₹)?\s*([0-9]{2,6}(?:\.[0-9]{1,2})?)`
at the current position; on success returns the captured value and the
remainder of the input after the whole match. -/
def tryNum (s : List Char) : Option (ℚ × List Char) :=
  match currencyKws.findSome? (fun k => (stripPrefixL k s).bind fun r => matchNum (skipWs r)) with
  | some vr => some vr
  | none => matchNum (skipWs s)

/-- Fuel-indexed worker for `re.findall`: scan left to right, on a match
resume after it, otherwise advance one character. -/
def findNumsF : Nat → List Char → List ℚ
  | 0, _ => []
  | fuel + 1, s =>
    match tryNum s with
    | some (v, r) => v :: findNumsF fuel r
    | none =>
      match s with
      | [] => []
      | _ :: cs => findNumsF fuel cs

/-- The list of numbers `re.findall` extracts from the lower-cased text
(line 110 of the source). -/
def findNums (s : List Char) : List ℚ := findNumsF (s.length + 1) s

/-- Python truthiness of `mrp` (a `float` or `None`): `0.0` is falsy. -/
def pyTruthy : Option ℚ → Bool
  | none => false
  | some v => v != 0

/-- The `or None` coercion on the keyword-match results (lines 104 and 107):
a matched value of `0.0` is falsy and collapses to `None`. -/
def orNone : Option ℚ → Option ℚ
  | none => none
  | some v => if v = 0 then none else some v

/-- Python `max` over a list, `none` on the empty list (the source only
applies it to a non-empty list). -/
def listMax : List ℚ → Option ℚ
  | [] => none
  | x :: xs => some (xs.foldl max x)

/-- Python `min` over a list, `none` on the empty list. -/
def listMin : List ℚ → Option ℚ
  | [] => none
  | x :: xs => some (xs.foldl min x)

/-- `sorted(set(nums))`: deduplicate, then sort ascending. -/
def candidatesOf (nums : List ℚ) : List ℚ := nums.dedup.insertionSort (· ≤ ·)

/-- The keywords that disqualify a line from being the name guess. -/
def nameSkipKws : List (List Char) :=
  [chars "mrp", chars "sell", chars "price", chars "rs", chars "inr", chars "₹"]

def nameSkip (l : List Char) : Bool :=
  nameSkipKws.any fun k => containsSub k (pyLowerL l)

/-- The test `re.search(r"[a-zA-Z]", l)` on the (un-lowered) line. -/
def hasLetter (l : List Char) : Bool :=
  l.any fun c => (65 ≤ c.toNat && c.toNat ≤ 90) || (97 ≤ c.toNat && c.toNat ≤ 122)

/-- The name-guess loop over (at most the first three) lines: skip lines
containing a price keyword or currency mark, take the first remaining line
with a letter in it (the source re-strips it, a no-op on already stripped
lines). -/
def nameGuess : List (List Char) → Option (List Char)
  | [] => none
  | l :: rest =>
    if nameSkip l then nameGuess rest
    else if hasLetter l then some (pyStripL l)
    else nameGuess rest

/-- The result record of the parser (`OCRResult` of the source, without the
FastAPI serialization). -/
structure OCRResult where
  raw_text : String
  name : Option String
  mrp : Option ℚ
  sell_price : Option ℚ
deriving DecidableEq, Repr

/-- Shallow embedding of `parse_price` (lines 88-129 of `src/main.py`). -/
def parse_price (text : String) : OCRResult :=
  let lines := pyLinesL text.data
  let lower_text := pyLowerL text.data
  let mrp := orNone (number_after mrpKws lower_text)
  let sell := orNone (number_after sellKws lower_text)
  let candidates := candidatesOf (findNums lower_text)
  let mrp := if mrp = none ∧ candidates ≠ [] then listMax candidates else mrp
  let sell :=
    if sell = none ∧ candidates ≠ [] then
      if pyTruthy mrp ∧ 1 < candidates.length then listMin candidates
      else candidates.getLast?
    else sell
  let name_line := nameGuess (lines.take 3)
  { raw_text := pyStrip text
    name := name_line.map String.mk
    mrp := mrp
    sell_price := sell }

/-! ### Auxiliary definitions for the proofs -/

/-- A character list consisting only of Python whitespace. -/
def wsOnly (b : List Char) : Prop := ∀ c ∈ b, pyIsSpace c = true

/-- The head of the list exists and is not whitespace. -/
def headNonWs : List Char → Bool
  | [] => false
  | c :: _ => !pyIsSpace c

/-- The last element of the list exists and is not whitespace. -/
def lastNonWs : List Char → Bool
  | [] => false
  | [c] => !pyIsSpace c
  | _ :: c :: cs => lastNonWs (c :: cs)

/-- Every keyword is non-empty and starts and ends with non-whitespace
(true of all three keyword lists of the parser). -/
def kwsOK (kws : List (List Char)) : Prop :=
  ∀ kw ∈ kws, headNonWs kw = true ∧ lastNonWs kw = true

/-- Strip each line and drop the ones that strip to nothing (the list
comprehension filter applied to an already split line list). -/
def filtStrip (ls : List (List Char)) : List (List Char) :=
  (ls.map pyStripL).filter (fun l => !l.isEmpty)

/-! ### Unfoldings of the fields of `parse_price` -/

/-- The `mrp` field, written out: the keyword match (after the `or None`
coercion), with the pool maximum as fallback. -/
theorem parse_price_mrp (t : String) :
    (parse_price t).mrp =
      (if orNone (number_after mrpKws (pyLowerL t.data)) = none ∧
          candidatesOf (findNums (pyLowerL t.data)) ≠ [] then
        listMax (candidatesOf (findNums (pyLowerL t.data)))
      else orNone (number_after mrpKws (pyLowerL t.data))) := rfl

/-- The `sell_price` field, written out. -/
theorem parse_price_sell (t : String) :
    (parse_price t).sell_price =
      (if orNone (number_after sellKws (pyLowerL t.data)) = none ∧
          candidatesOf (findNums (pyLowerL t.data)) ≠ [] then
        (if pyTruthy (if orNone (number_after mrpKws (pyLowerL t.data)) = none ∧
                candidatesOf (findNums (pyLowerL t.data)) ≠ [] then
              listMax (candidatesOf (findNums (pyLowerL t.data)))
            else orNone (number_after mrpKws (pyLowerL t.data))) ∧
            1 < (candidatesOf (findNums (pyLowerL t.data))).length then
          listMin (candidatesOf (findNums (pyLowerL t.data)))
        else (candidatesOf (findNums (pyLowerL t.data))).getLast?)
      else orNone (number_after sellKws (pyLowerL t.data))) := rfl

/-- The `name` field, written out. -/
theorem parse_price_name (t : String) :
    (parse_price t).name = (nameGuess ((pyLinesL t.data).take 3)).map String.mk := rfl

/-! ### Helper lemmas about list maxima and minima -/

theorem le_foldl_max : ∀ (xs : List ℚ) (x : ℚ), ∀ a ∈ x :: xs, a ≤ xs.foldl max x := by
  intro xs
  induction xs with
  | nil => intro x a ha; rcases List.mem_singleton.mp ha with rfl; exact le_refl a
  | cons y ys ih =>
    intro x a ha
    rcases List.mem_cons.mp ha with rfl | ha
    · exact le_trans (le_max_left a y) (ih (max a y) _ (List.mem_cons_self _ _))
    · rcases List.mem_cons.mp ha with rfl | ha
      · exact le_trans (le_max_right x a) (ih (max x a) _ (List.mem_cons_self _ _))
      · exact ih (max x y) a (List.mem_cons_of_mem _ ha)

theorem listMax_ge {l : List ℚ} {m : ℚ} (h : listMax l = some m) : ∀ a ∈ l, a ≤ m := by
  cases l with
  | nil => simp [listMax] at h
  | cons x xs =>
    simp only [listMax, Option.some.injEq] at h
    subst h
    intro a ha
    exact le_foldl_max xs x a ha

theorem foldl_min_mem : ∀ (xs : List ℚ) (x : ℚ), xs.foldl min x ∈ x :: xs := by
  intro xs
  induction xs with
  | nil => intro x; exact List.mem_singleton.mpr rfl
  | cons y ys ih =>
    intro x
    show List.foldl min (min x y) ys ∈ x :: y :: ys
    have h := ih (min x y)
    rcases List.mem_cons.mp h with h1 | h1
    · rw [h1]
      rcases min_choice x y with h2 | h2 <;> rw [h2]
      · exact List.mem_cons_self _ _
      · exact List.mem_cons_of_mem _ (List.mem_cons_self _ _)
    · exact List.mem_cons_of_mem _ (List.mem_cons_of_mem _ h1)

theorem listMin_mem {l : List ℚ} {m : ℚ} (h : listMin l = some m) : m ∈ l := by
  cases l with
  | nil => simp [listMin] at h
  | cons x xs =>
    simp only [listMin, Option.some.injEq] at h
    subst h
    exact foldl_min_mem xs x

theorem mem_of_getLast? {l : List ℚ} {a : ℚ} (h : l.getLast? = some a) : a ∈ l := by
  induction l with
  | nil => simp at h
  | cons x xs ih =>
    cases xs with
    | nil => simp_all
    | cons y ys =>
      rw [List.getLast?_cons_cons] at h
      exact List.mem_cons_of_mem _ (ih h)

/-! ### Whitespace facts and strip lemmas (towards the idempotence claim) -/

theorem pyIsSpace_iff {c : Char} : pyIsSpace c = true ↔ c.toNat ∈ wsCodes := by
  unfold pyIsSpace
  rw [List.contains_iff_exists_mem_beq]
  constructor
  · rintro ⟨a, ha, hba⟩
    rwa [show c.toNat = a from by simpa using hba]
  · intro h
    exact ⟨c.toNat, h, by simp⟩

theorem ws_ne {c d : Char} (hc : pyIsSpace c = true) (hd : pyIsSpace d = false) : c ≠ d := by
  intro h
  rw [h, hd] at hc
  cases hc

theorem ws_not_digit {c : Char} (hc : pyIsSpace c = true) : isDigitCh c = false := by
  have ha := pyIsSpace_iff.mp hc
  simp only [wsCodes, List.mem_cons, List.not_mem_nil, or_false] at ha
  unfold isDigitCh
  simp only [Bool.and_eq_false_iff, decide_eq_false_iff_not]
  omega

theorem ws_false_of_between {c : Char} (h1 : 65 ≤ c.toNat) (h2 : c.toNat ≤ 122) :
    pyIsSpace c = false := by
  rw [Bool.eq_false_iff]
  intro hc
  have ha := pyIsSpace_iff.mp hc
  simp only [wsCodes, List.mem_cons, List.not_mem_nil, or_false] at ha
  omega

theorem toNat_ofNat_small {n : Nat} (h1 : n < 150) : (Char.ofNat n).toNat = n := by
  unfold Char.ofNat
  rw [dif_pos (Or.inl (by omega : n < 55296))]
  rfl

/-- Lowering a character does not change whether it is whitespace. -/
theorem ws_toLower (c : Char) : pyIsSpace (pyToLower c) = pyIsSpace c := by
  unfold pyToLower
  by_cases h : 65 ≤ c.toNat ∧ c.toNat ≤ 90
  · rw [if_pos h]
    rw [ws_false_of_between h.1 (by omega)]
    exact ws_false_of_between
      (c := Char.ofNat (c.toNat + 32))
      (by rw [toNat_ofNat_small (by omega)]; omega)
      (by rw [toNat_ofNat_small (by omega)]; omega)
  · rw [if_neg h]

theorem wsOnly_nil : wsOnly [] := fun c hc => absurd hc (List.not_mem_nil c)

theorem wsOnly_reverse {b : List Char} (h : wsOnly b) : wsOnly b.reverse :=
  fun c hc => h c (List.mem_reverse.mp hc)

theorem dropWhile_ws_nil {b : List Char} (h : wsOnly b) :
    b.dropWhile pyIsSpace = [] :=
  List.dropWhile_eq_nil_iff.mpr h

theorem wsOnly_takeWhile (s : List Char) : wsOnly (s.takeWhile pyIsSpace) :=
  fun _ hc => List.mem_takeWhile_imp hc

/-- Removing trailing whitespace ignores an all-whitespace suffix. -/
theorem stripTrail_append_ws {y b : List Char} (hb : wsOnly b) :
    stripTrail (y ++ b) = stripTrail y := by
  unfold stripTrail
  rw [List.reverse_append, List.dropWhile_append,
    if_pos (by rw [dropWhile_ws_nil (wsOnly_reverse hb)]; rfl)]

/-- Removing leading whitespace ignores a whitespace head. -/
theorem stripLead_cons_ws {w : Char} {x : List Char} (hw : pyIsSpace w = true) :
    stripLead (w :: x) = stripLead x := by
  unfold stripLead
  rw [List.dropWhile_cons, if_pos hw]

theorem pyStripL_cons_ws {w : Char} {x : List Char} (hw : pyIsSpace w = true) :
    pyStripL (w :: x) = pyStripL x := by
  unfold pyStripL
  rw [stripLead_cons_ws hw]

theorem pyStripL_append_ws {x b : List Char} (hb : wsOnly b) :
    pyStripL (x ++ b) = pyStripL x := by
  unfold pyStripL stripLead
  rw [List.dropWhile_append]
  by_cases h : (x.dropWhile pyIsSpace).isEmpty = true
  · rw [if_pos h, dropWhile_ws_nil hb]
    rw [List.isEmpty_iff] at h
    rw [h]
  · rw [if_neg h]
    exact stripTrail_append_ws hb

theorem pyStripL_ws_front {a x : List Char} (ha : wsOnly a) :
    pyStripL (a ++ x) = pyStripL x := by
  induction a with
  | nil => rfl
  | cons w a' ih =>
    have hw : pyIsSpace w = true := ha w (List.mem_cons_self _ _)
    have ha' : wsOnly a' := fun c hc => ha c (List.mem_cons_of_mem _ hc)
    rw [List.cons_append, pyStripL_cons_ws hw, ih ha']

/-- Every string is whitespace, then its strip, then whitespace. -/
theorem strip_decomp (s : List Char) :
    ∃ a b, wsOnly a ∧ wsOnly b ∧ s = a ++ pyStripL s ++ b := by
  refine ⟨s.takeWhile pyIsSpace,
    ((s.dropWhile pyIsSpace).reverse.takeWhile pyIsSpace).reverse,
    wsOnly_takeWhile s, wsOnly_reverse (wsOnly_takeWhile _), ?_⟩
  conv_lhs => rw [← List.takeWhile_append_dropWhile (p := pyIsSpace) (l := s)]
  rw [List.append_assoc]
  congr 1
  show s.dropWhile pyIsSpace = pyStripL s ++ _
  unfold pyStripL stripLead stripTrail
  conv_lhs => rw [← List.reverse_reverse (s.dropWhile pyIsSpace)]
  conv_lhs =>
    rw [← List.takeWhile_append_dropWhile (p := pyIsSpace)
      (l := (s.dropWhile pyIsSpace).reverse)]
  rw [List.reverse_append]

/-- `strip` is idempotent. -/
theorem pyStripL_idem (s : List Char) : pyStripL (pyStripL s) = pyStripL s := by
  obtain ⟨a, b, ha, hb, hdec⟩ := strip_decomp s
  conv_rhs => rw [hdec]
  rw [List.append_assoc, pyStripL_ws_front ha, pyStripL_append_ws hb]

/-- Lowering commutes with stripping. -/
theorem lower_strip_comm (s : List Char) :
    pyLowerL (pyStripL s) = pyStripL (pyLowerL s) := by
  unfold pyLowerL pyStripL stripLead stripTrail
  have hfun : (pyIsSpace ∘ pyToLower) = pyIsSpace := funext fun c => ws_toLower c
  rw [List.dropWhile_map, hfun, ← List.map_reverse, List.dropWhile_map, hfun,
    ← List.map_reverse]

/-! ### Prefix matching and the numeric token under surrounding whitespace -/

theorem stripPrefixL_ws_head {kw : List Char} {c : Char} {s : List Char}
    (hk : headNonWs kw = true) (hc : pyIsSpace c = true) :
    stripPrefixL kw (c :: s) = none := by
  cases kw with
  | nil => simp [headNonWs] at hk
  | cons k ks =>
    simp only [headNonWs, Bool.not_eq_true'] at hk
    unfold stripPrefixL
    rw [if_neg (Ne.symm (ws_ne hc hk))]

theorem stripPrefixL_some_append {kw : List Char} {b : List Char} :
    ∀ {u r : List Char}, stripPrefixL kw u = some r →
      stripPrefixL kw (u ++ b) = some (r ++ b) := by
  induction kw with
  | nil =>
    intro u r h
    unfold stripPrefixL at h ⊢
    cases h
    rfl
  | cons k ks ih =>
    intro u r h
    cases u with
    | nil => simp [stripPrefixL] at h
    | cons c cs =>
      rw [List.cons_append]
      unfold stripPrefixL at h ⊢
      by_cases hkc : k = c
      · rw [if_pos hkc] at h ⊢
        exact ih h
      · rw [if_neg hkc] at h
        cases h

theorem stripPrefixL_wsOnly_none : ∀ (kw : List Char), kw ≠ [] → lastNonWs kw = true →
    ∀ (s : List Char), wsOnly s → stripPrefixL kw s = none := by
  intro kw
  induction kw with
  | nil => intro h; exact absurd rfl h
  | cons k ks ih =>
    intro _ hlast s hs
    cases s with
    | nil => rfl
    | cons c cs =>
      unfold stripPrefixL
      by_cases hkc : k = c
      · rw [if_pos hkc]
        cases ks with
        | nil =>
          exfalso
          have hws : pyIsSpace k = true := by
            rw [hkc]; exact hs c (List.mem_cons_self _ _)
          simp [lastNonWs, hws] at hlast
        | cons k2 ks2 =>
          exact ih (by simp) (by exact hlast) cs
            (fun c' hc' => hs c' (List.mem_cons_of_mem _ hc'))
      · rw [if_neg hkc]

theorem stripPrefixL_none_append_ws {b : List Char} (hb : wsOnly b) :
    ∀ (u kw : List Char), lastNonWs kw = true →
      stripPrefixL kw u = none → stripPrefixL kw (u ++ b) = none := by
  intro u
  induction u with
  | nil =>
    intro kw hlast h
    cases kw with
    | nil => simp [stripPrefixL] at h
    | cons k ks =>
      exact stripPrefixL_wsOnly_none (k :: ks) (by simp) hlast b hb
  | cons c cs ih =>
    intro kw hlast h
    cases kw with
    | nil => simp [stripPrefixL] at h
    | cons k ks =>
      rw [List.cons_append]
      unfold stripPrefixL at h ⊢
      by_cases hkc : k = c
      · rw [if_pos hkc] at h ⊢
        cases ks with
        | nil => simp [stripPrefixL] at h
        | cons k2 ks2 => exact ih (k2 :: ks2) (by exact hlast) h
      · rw [if_neg hkc]

theorem kwChEq_ws_right {k c : Char} (hc : pyIsSpace c = true) (hk : pyIsSpace k = false) :
    kwChEq k c = false := by
  unfold kwChEq
  have h1 : decide (k = c) = false := by
    rw [decide_eq_false_iff_not]
    intro h
    rw [h, hc] at hk
    cases hk
  have h2 : decide (c = 'ſ') = false := by
    rw [decide_eq_false_iff_not]
    intro h
    rw [h] at hc
    exact absurd hc (by decide)
  have h3 : decide (c = 'ı') = false := by
    rw [decide_eq_false_iff_not]
    intro h
    rw [h] at hc
    exact absurd hc (by decide)
  rw [h1, h2, h3]
  simp

theorem kwChEq_ws_left {k c : Char} (h : kwChEq k c = true) (hc : pyIsSpace c = true) :
    pyIsSpace k = true := by
  unfold kwChEq at h
  simp only [Bool.or_eq_true, Bool.and_eq_true, decide_eq_true_eq] at h
  rcases h with (h | ⟨h1, h2⟩) | ⟨h1, h2⟩
  · rw [h]
    exact hc
  · rw [h2] at hc
    exact absurd hc (by decide)
  · rw [h2] at hc
    exact absurd hc (by decide)

theorem stripKwPrefix_ws_head {kw : List Char} {c : Char} {s : List Char}
    (hk : headNonWs kw = true) (hc : pyIsSpace c = true) :
    stripKwPrefix kw (c :: s) = none := by
  cases kw with
  | nil => simp [headNonWs] at hk
  | cons k ks =>
    simp only [headNonWs, Bool.not_eq_true'] at hk
    unfold stripKwPrefix
    rw [if_neg (by rw [kwChEq_ws_right hc hk]; exact Bool.false_ne_true)]

theorem stripKwPrefix_some_append {kw : List Char} {b : List Char} :
    ∀ {u r : List Char}, stripKwPrefix kw u = some r →
      stripKwPrefix kw (u ++ b) = some (r ++ b) := by
  induction kw with
  | nil =>
    intro u r h
    unfold stripKwPrefix at h ⊢
    cases h
    rfl
  | cons k ks ih =>
    intro u r h
    cases u with
    | nil => simp [stripKwPrefix] at h
    | cons c cs =>
      rw [List.cons_append]
      unfold stripKwPrefix at h ⊢
      by_cases hkc : kwChEq k c = true
      · rw [if_pos hkc] at h ⊢
        exact ih h
      · rw [if_neg hkc] at h
        cases h

theorem stripKwPrefix_wsOnly_none : ∀ (kw : List Char), kw ≠ [] → lastNonWs kw = true →
    ∀ (s : List Char), wsOnly s → stripKwPrefix kw s = none := by
  intro kw
  induction kw with
  | nil => intro h; exact absurd rfl h
  | cons k ks ih =>
    intro _ hlast s hs
    cases s with
    | nil => rfl
    | cons c cs =>
      unfold stripKwPrefix
      by_cases hkc : kwChEq k c = true
      · rw [if_pos hkc]
        cases ks with
        | nil =>
          exfalso
          have hws : pyIsSpace k = true :=
            kwChEq_ws_left hkc (hs c (List.mem_cons_self _ _))
          simp [lastNonWs, hws] at hlast
        | cons k2 ks2 =>
          exact ih (by simp) (by exact hlast) cs
            (fun c' hc' => hs c' (List.mem_cons_of_mem _ hc'))
      · rw [if_neg hkc]

theorem stripKwPrefix_none_append_ws {b : List Char} (hb : wsOnly b) :
    ∀ (u kw : List Char), lastNonWs kw = true →
      stripKwPrefix kw u = none → stripKwPrefix kw (u ++ b) = none := by
  intro u
  induction u with
  | nil =>
    intro kw hlast h
    cases kw with
    | nil => simp [stripKwPrefix] at h
    | cons k ks =>
      exact stripKwPrefix_wsOnly_none (k :: ks) (by simp) hlast b hb
  | cons c cs ih =>
    intro kw hlast h
    cases kw with
    | nil => simp [stripKwPrefix] at h
    | cons k ks =>
      rw [List.cons_append]
      unfold stripKwPrefix at h ⊢
      by_cases hkc : kwChEq k c = true
      · rw [if_pos hkc] at h ⊢
        cases ks with
        | nil => simp [stripKwPrefix] at h
        | cons k2 ks2 => exact ih (k2 :: ks2) (by exact hlast) h
      · rw [if_neg hkc]

theorem skipWs_append_ws {x b : List Char} (hb : wsOnly b) :
    skipWs (x ++ b) = skipWs x ++ b ∨ (skipWs x = [] ∧ skipWs (x ++ b) = []) := by
  unfold skipWs
  by_cases h : (x.dropWhile pyIsSpace).isEmpty = true
  · right
    have h' := List.isEmpty_iff.mp h
    rw [List.dropWhile_append, if_pos h]
    exact ⟨h', dropWhile_ws_nil hb⟩
  · left
    rw [List.dropWhile_append, if_neg h]

theorem takeWhile_digits_append_ws {b : List Char} (hb : wsOnly b) :
    ∀ x : List Char, (x ++ b).takeWhile isDigitCh = x.takeWhile isDigitCh := by
  intro x
  induction x with
  | nil =>
    simp only [List.nil_append, List.takeWhile_nil]
    cases b with
    | nil => rfl
    | cons c cs =>
      rw [List.takeWhile_cons,
        if_neg (by rw [ws_not_digit (hb c (List.mem_cons_self _ _))]; simp)]
  | cons c cs ih =>
    rw [List.cons_append, List.takeWhile_cons, List.takeWhile_cons]
    by_cases h : isDigitCh c = true
    · rw [if_pos h, if_pos h, ih]
    · rw [if_neg h, if_neg h]

theorem dropWhile_digits_append_ws {b : List Char} (hb : wsOnly b) :
    ∀ x : List Char, (x ++ b).dropWhile isDigitCh = x.dropWhile isDigitCh ++ b := by
  intro x
  induction x with
  | nil =>
    simp only [List.nil_append, List.dropWhile_nil]
    cases b with
    | nil => rfl
    | cons c cs =>
      rw [List.dropWhile_cons,
        if_neg (by rw [ws_not_digit (hb c (List.mem_cons_self _ _))]; simp)]
  | cons c cs ih =>
    rw [List.cons_append, List.dropWhile_cons, List.dropWhile_cons]
    by_cases h : isDigitCh c = true
    · rw [if_pos h, if_pos h, ih]
    · rw [if_neg h, if_neg h, List.cons_append]

/-- Appending trailing whitespace leaves the decimal part unchanged and
extends the remainder by exactly that whitespace. -/
theorem decPart_append_ws {b : List Char} (hb : wsOnly b) (I : ℚ) :
    ∀ rest, decPart I (rest ++ b) = ((decPart I rest).1, (decPart I rest).2 ++ b) := by
  intro rest
  cases rest with
  | nil =>
    simp only [List.nil_append, decPart]
    cases b with
    | nil => rfl
    | cons c t =>
      simp only [decPart]
      rw [if_neg (ws_ne (hb c (List.mem_cons_self _ _)) (by decide : pyIsSpace '.' = false))]
  | cons c t =>
    simp only [List.cons_append, decPart]
    by_cases hc : c = '.'
    · rw [if_pos hc, if_pos hc, takeWhile_digits_append_ws hb t]
      cases hfs : t.takeWhile isDigitCh with
      | nil => simp
      | cons f fs2 =>
        rw [dropWhile_digits_append_ws hb t]
        simp only [List.append_assoc]
    · rw [if_neg hc, if_neg hc]
      simp

/-- Appending trailing whitespace does not change the token a `matchNum`
match captures, and extends the remainder by exactly that whitespace. -/
theorem matchNum_append_ws {b : List Char} (hb : wsOnly b) (x : List Char) :
    matchNum (x ++ b) = (matchNum x).map (fun vr => (vr.1, vr.2 ++ b)) := by
  unfold matchNum
  rw [takeWhile_digits_append_ws hb, dropWhile_digits_append_ws hb]
  by_cases hlen : (x.takeWhile isDigitCh).length < 2
  · rw [if_pos hlen, if_pos hlen]
    rfl
  · rw [if_neg hlen, if_neg hlen]
    rw [show (x.takeWhile isDigitCh).drop 6 ++ (x.dropWhile isDigitCh ++ b) =
        ((x.takeWhile isDigitCh).drop 6 ++ x.dropWhile isDigitCh) ++ b from
      (List.append_assoc _ _ _).symm]
    rw [decPart_append_ws hb]
    rfl

/-! ### Invariance of the keyword search under surrounding whitespace -/

/-- The relation between a scan state and the same state with trailing
whitespace appended, degenerating to two empty states once a `\s*` has
consumed everything. -/
def wsExtPair (b x y : List Char) : Prop := y = x ++ b ∨ (x = [] ∧ y = [])

theorem wsExtPair_skipWs {b x y : List Char} (hb : wsOnly b) (h : wsExtPair b x y) :
    wsExtPair b (skipWs x) (skipWs y) := by
  rcases h with rfl | ⟨hx, hy⟩
  · rcases skipWs_append_ws (x := x) hb with h1 | ⟨h1, h2⟩
    · exact Or.inl h1
    · exact Or.inr ⟨h1, h2⟩
  · subst hx; subst hy
    exact Or.inr ⟨rfl, rfl⟩

theorem wsExtPair_sepOpt {b x y : List Char} (hb : wsOnly b) (h : wsExtPair b x y) :
    wsExtPair b (sepOpt x) (sepOpt y) := by
  rcases h with rfl | ⟨hx, hy⟩
  · cases x with
    | nil =>
      cases b with
      | nil => exact Or.inr ⟨rfl, rfl⟩
      | cons c t =>
        have hc := hb c (List.mem_cons_self _ _)
        show wsExtPair (c :: t) [] (if c = ':' ∨ c = '-' then t else c :: t)
        rw [if_neg (by rintro (rfl | rfl) <;> exact absurd hc (by decide))]
        exact Or.inl (List.nil_append _).symm
    | cons c cs =>
      show wsExtPair b (if c = ':' ∨ c = '-' then cs else c :: cs)
        (if c = ':' ∨ c = '-' then cs ++ b else c :: (cs ++ b))
      by_cases hsep : c = ':' ∨ c = '-'
      · rw [if_pos hsep, if_pos hsep]
        exact Or.inl rfl
      · rw [if_neg hsep, if_neg hsep]
        exact Or.inl (List.cons_append _ _ _).symm
  · subst hx; subst hy
    exact Or.inr ⟨rfl, rfl⟩

theorem wsExtPair_rupeeOpt {b x y : List Char} (hb : wsOnly b) (h : wsExtPair b x y) :
    wsExtPair b (rupeeOpt x) (rupeeOpt y) := by
  rcases h with rfl | ⟨hx, hy⟩
  · cases x with
    | nil =>
      cases b with
      | nil => exact Or.inr ⟨rfl, rfl⟩
      | cons c t =>
        have hc := hb c (List.mem_cons_self _ _)
        show wsExtPair (c :: t) [] (if c = '₹' then t else c :: t)
        rw [if_neg (by rintro rfl; exact absurd hc (by decide))]
        exact Or.inl (List.nil_append _).symm
    | cons c cs =>
      show wsExtPair b (if c = '₹' then cs else c :: cs)
        (if c = '₹' then cs ++ b else c :: (cs ++ b))
      by_cases hr : c = '₹'
      · rw [if_pos hr, if_pos hr]
        exact Or.inl rfl
      · rw [if_neg hr, if_neg hr]
        exact Or.inl (List.cons_append _ _ _).symm
  · subst hx; subst hy
    exact Or.inr ⟨rfl, rfl⟩

theorem matchNum_fst_wsExt {b x y : List Char} (hb : wsOnly b) (h : wsExtPair b x y) :
    (matchNum y).map Prod.fst = (matchNum x).map Prod.fst := by
  rcases h with rfl | ⟨hx, hy⟩
  · rw [matchNum_append_ws hb]
    cases matchNum x with
    | none => rfl
    | some vr => rfl
  · subst hx; subst hy
    rfl

theorem afterKw_append_ws {b : List Char} (hb : wsOnly b) (x : List Char) :
    afterKw (x ++ b) = afterKw x := by
  unfold afterKw
  exact matchNum_fst_wsExt hb
    (wsExtPair_skipWs hb (wsExtPair_rupeeOpt hb (wsExtPair_skipWs hb
      (wsExtPair_sepOpt hb (wsExtPair_skipWs hb (Or.inl rfl))))))

theorem tryKwsAt_append_ws {x b : List Char} (hb : wsOnly b) :
    ∀ kws, kwsOK kws → tryKwsAt kws (x ++ b) = tryKwsAt kws x := by
  intro kws
  induction kws with
  | nil => intro _; rfl
  | cons kw kws ih =>
    intro hok
    unfold tryKwsAt
    rw [List.findSome?_cons, List.findSome?_cons]
    have he : (stripKwPrefix kw (x ++ b)).bind afterKw = (stripKwPrefix kw x).bind afterKw := by
      cases hsp : stripKwPrefix kw x with
      | some r =>
        rw [stripKwPrefix_some_append hsp]
        exact afterKw_append_ws hb r
      | none =>
        rw [stripKwPrefix_none_append_ws hb x kw (hok kw (List.mem_cons_self _ _)).2 hsp]
    rw [he]
    cases (stripKwPrefix kw x).bind afterKw with
    | some v => rfl
    | none => exact ih (fun k hk => hok k (List.mem_cons_of_mem _ hk))

theorem tryKwsAt_ws_head {c : Char} {s : List Char} (hc : pyIsSpace c = true) :
    ∀ kws, kwsOK kws → tryKwsAt kws (c :: s) = none := by
  intro kws
  induction kws with
  | nil => intro _; rfl
  | cons kw kws ih =>
    intro hok
    unfold tryKwsAt
    rw [List.findSome?_cons,
      stripKwPrefix_ws_head (hok kw (List.mem_cons_self _ _)).1 hc]
    exact ih (fun k hk => hok k (List.mem_cons_of_mem _ hk))

theorem searchKws_wsOnly {kws : List (List Char)} (hok : kwsOK kws) :
    ∀ s, wsOnly s → searchKws kws s = none := by
  intro s
  induction s with
  | nil => intro _; rfl
  | cons c cs ih =>
    intro hs
    have hc := hs c (List.mem_cons_self _ _)
    simp only [searchKws, tryKwsAt_ws_head hc kws hok]
    exact ih (fun c' hc' => hs c' (List.mem_cons_of_mem _ hc'))

theorem searchKws_ws_front {kws : List (List Char)} (hok : kwsOK kws)
    {a : List Char} (ha : wsOnly a) (s : List Char) :
    searchKws kws (a ++ s) = searchKws kws s := by
  induction a with
  | nil => rfl
  | cons w a' ih =>
    have hw : pyIsSpace w = true := ha w (List.mem_cons_self _ _)
    rw [List.cons_append]
    simp only [searchKws, tryKwsAt_ws_head hw kws hok]
    exact ih (fun c hc => ha c (List.mem_cons_of_mem _ hc))

theorem searchKws_append_ws {kws : List (List Char)} (hok : kwsOK kws)
    {b : List Char} (hb : wsOnly b) :
    ∀ x, searchKws kws (x ++ b) = searchKws kws x := by
  intro x
  induction x with
  | nil =>
    simp only [List.nil_append]
    rw [searchKws_wsOnly hok b hb]
    rfl
  | cons c cs ih =>
    rw [List.cons_append]
    simp only [searchKws]
    rw [show tryKwsAt kws (c :: (cs ++ b)) = tryKwsAt kws (c :: cs) from by
      rw [← List.cons_append]
      exact tryKwsAt_append_ws hb kws hok]
    cases tryKwsAt kws (c :: cs) with
    | some v => rfl
    | none => exact ih

/-- The keyword search only sees the stripped text. -/
theorem searchKws_strip {kws : List (List Char)} (hok : kwsOK kws) (s : List Char) :
    searchKws kws (pyStripL s) = searchKws kws s := by
  obtain ⟨a, b, ha, hb, hdec⟩ := strip_decomp s
  conv_rhs => rw [hdec]
  rw [List.append_assoc, searchKws_ws_front hok ha, searchKws_append_ws hok hb]

/-! ### Invariance of the fallback number scan under surrounding whitespace -/

theorem stripPrefixL_length {kw : List Char} :
    ∀ {s r : List Char}, stripPrefixL kw s = some r → r.length ≤ s.length := by
  induction kw with
  | nil =>
    intro s r h
    cases h
    exact le_refl _
  | cons k ks ih =>
    intro s r h
    cases s with
    | nil => simp [stripPrefixL] at h
    | cons c cs =>
      unfold stripPrefixL at h
      by_cases hkc : k = c
      · rw [if_pos hkc] at h
        exact le_trans (ih h) (by simp)
      · rw [if_neg hkc] at h
        cases h

theorem skipWs_length (s : List Char) : (skipWs s).length ≤ s.length := by
  unfold skipWs
  induction s with
  | nil => simp
  | cons c cs ih =>
    rw [List.dropWhile_cons]
    by_cases h : pyIsSpace c = true
    · rw [if_pos h]
      exact le_trans ih (by simp)
    · rw [if_neg h]

theorem decPart_length (I : ℚ) : ∀ rest, ((decPart I rest).2).length ≤ rest.length := by
  intro rest
  cases rest with
  | nil => exact le_refl _
  | cons c t =>
    show ((if c = '.' then
        match t.takeWhile isDigitCh with
        | [] => (I, c :: t)
        | f :: fs =>
          (I + (digitsVal ((f :: fs).take 2) : ℚ) / ((10 : ℚ) ^ ((f :: fs).take 2).length),
           (f :: fs).drop 2 ++ t.dropWhile isDigitCh)
      else (I, c :: t)).2).length ≤ (c :: t).length
    by_cases hc : c = '.'
    · rw [if_pos hc]
      cases hfs : t.takeWhile isDigitCh with
      | nil => exact le_refl _
      | cons f fs =>
        have ht : (f :: fs).length + (t.dropWhile isDigitCh).length = t.length := by
          rw [← hfs, ← List.length_append, List.takeWhile_append_dropWhile]
        simp only [List.length_append, List.length_drop, List.length_cons] at ht ⊢
        omega
    · rw [if_neg hc]

theorem matchNum_shrinks : ∀ {s : List Char} {vr : ℚ × List Char},
    matchNum s = some vr → vr.2.length < s.length := by
  intro s vr h
  unfold matchNum at h
  by_cases hlen : (s.takeWhile isDigitCh).length < 2
  · rw [if_pos hlen] at h
    cases h
  · rw [if_neg hlen] at h
    cases h
    have h1 := decPart_length ((digitsVal ((s.takeWhile isDigitCh).take 6) : ℕ) : ℚ)
      ((s.takeWhile isDigitCh).drop 6 ++ s.dropWhile isDigitCh)
    have h2 : s.length = (s.takeWhile isDigitCh).length + (s.dropWhile isDigitCh).length := by
      rw [← List.length_append, List.takeWhile_append_dropWhile]
    rw [List.length_append, List.length_drop] at h1
    omega

theorem digit_ne {e k : Char} (he : isDigitCh e = true) (hk : isDigitCh k = false) : k ≠ e := by
  intro h
  rw [h, he] at hk
  cases hk

theorem stripPrefixL_head_ne {k : Char} {ks : List Char} {e : Char} {es : List Char}
    (hne : k ≠ e) : stripPrefixL (k :: ks) (e :: es) = none := by
  unfold stripPrefixL
  rw [if_neg hne]

theorem findSome?_eq_some_ex {α β : Type} {f : α → Option β} :
    ∀ {l : List α} {b : β}, l.findSome? f = some b → ∃ a ∈ l, f a = some b := by
  intro l
  induction l with
  | nil => intro b h; simp at h
  | cons a as ih =>
    intro b h
    rw [List.findSome?_cons] at h
    cases hfa : f a with
    | some c =>
      rw [hfa] at h
      cases h
      exact ⟨a, List.mem_cons_self _ _, hfa⟩
    | none =>
      rw [hfa] at h
      obtain ⟨a', ha', hfa'⟩ := ih h
      exact ⟨a', List.mem_cons_of_mem _ ha', hfa'⟩

theorem tryNum_shrinks {s : List Char} {vr : ℚ × List Char} (h : tryNum s = some vr) :
    vr.2.length < s.length := by
  unfold tryNum at h
  cases hfs : currencyKws.findSome?
      (fun k => (stripPrefixL k s).bind fun r => matchNum (skipWs r)) with
  | some vr2 =>
    rw [hfs] at h
    cases h
    obtain ⟨kw, _, hkw⟩ := findSome?_eq_some_ex hfs
    cases hsp : stripPrefixL kw s with
    | none =>
      rw [hsp] at hkw
      cases hkw
    | some r =>
      rw [hsp] at hkw
      exact lt_of_lt_of_le (matchNum_shrinks hkw)
        (le_trans (skipWs_length r) (stripPrefixL_length hsp))
  | none =>
    rw [hfs] at h
    exact lt_of_lt_of_le (matchNum_shrinks h) (skipWs_length s)

theorem findNumsF_congr : ∀ (f1 f2 : Nat) (s : List Char),
    s.length < f1 → s.length < f2 → findNumsF f1 s = findNumsF f2 s := by
  intro f1
  induction f1 with
  | zero => intro f2 s h1 h2; omega
  | succ f ih =>
    intro f2 s h1 h2
    cases f2 with
    | zero => omega
    | succ f2' =>
      simp only [findNumsF]
      cases htn : tryNum s with
      | some vr =>
        obtain ⟨v, r⟩ := vr
        have hr : r.length < s.length := tryNum_shrinks htn
        show v :: findNumsF f r = v :: findNumsF f2' r
        congr 1
        exact ih f2' r (by omega) (by omega)
      | none =>
        cases s with
        | nil => rfl
        | cons c cs =>
          show findNumsF f cs = findNumsF f2' cs
          simp only [List.length_cons] at h1 h2
          exact ih f2' cs (by omega) (by omega)

/-- The single unfolding step of the fallback scan. -/
theorem findNums_eq (s : List Char) :
    findNums s = match tryNum s with
      | some (v, r) => v :: findNums r
      | none => match s with
        | [] => ([] : List ℚ)
        | _ :: cs => findNums cs := by
  unfold findNums
  simp only [findNumsF]
  cases htn : tryNum s with
  | some vr =>
    obtain ⟨v, r⟩ := vr
    have hr : r.length < s.length := tryNum_shrinks htn
    show v :: findNumsF s.length r = v :: findNums r
    congr 1
    unfold findNums
    exact findNumsF_congr s.length (r.length + 1) r (by omega) (by omega)
  | none =>
    cases s with
    | nil => rfl
    | cons c cs =>
      show findNumsF (c :: cs).length cs = findNums cs
      unfold findNums
      exact findNumsF_congr _ _ cs (by simp) (by omega)

theorem matchNum_head_digit {s : List Char} {vr : ℚ × List Char} (h : matchNum s = some vr) :
    ∃ d s', s = d :: s' ∧ isDigitCh d = true := by
  unfold matchNum at h
  by_cases hlen : (s.takeWhile isDigitCh).length < 2
  · rw [if_pos hlen] at h
    cases h
  · cases s with
    | nil => simp at hlen
    | cons d s' =>
      refine ⟨d, s', rfl, ?_⟩
      by_contra hd
      rw [List.takeWhile_cons, if_neg hd] at hlen
      exact hlen (by simp)

theorem tryNum_ws_head {c : Char} {s : List Char} (hc : pyIsSpace c = true) :
    tryNum (c :: s) = matchNum (skipWs s) := by
  unfold tryNum
  have h1 : stripPrefixL (chars "rs.") (c :: s) = none := stripPrefixL_ws_head (by decide) hc
  have h2 : stripPrefixL (chars "rs") (c :: s) = none := stripPrefixL_ws_head (by decide) hc
  have h3 : stripPrefixL (chars "inr") (c :: s) = none := stripPrefixL_ws_head (by decide) hc
  have h4 : stripPrefixL (chars "₹") (c :: s) = none := stripPrefixL_ws_head (by decide) hc
  rw [show currencyKws.findSome?
        (fun k => (stripPrefixL k (c :: s)).bind fun r => matchNum (skipWs r)) = none from by
    simp only [currencyKws, List.findSome?_cons, h1, h2, h3, h4, Option.none_bind,
      List.findSome?_nil]]
  show matchNum (skipWs (c :: s)) = matchNum (skipWs s)
  unfold skipWs
  rw [List.dropWhile_cons, if_pos hc]

theorem tryNum_of_matchNum_skipWs {s : List Char} {vr : ℚ × List Char}
    (h : matchNum (skipWs s) = some vr) : tryNum s = some vr := by
  unfold tryNum
  have hcur : currencyKws.findSome?
      (fun k => (stripPrefixL k s).bind fun r => matchNum (skipWs r)) = none := by
    cases s with
    | nil => decide
    | cons e es =>
      by_cases he : pyIsSpace e = true
      · have g1 : stripPrefixL (chars "rs.") (e :: es) = none := stripPrefixL_ws_head (by decide) he
        have g2 : stripPrefixL (chars "rs") (e :: es) = none := stripPrefixL_ws_head (by decide) he
        have g3 : stripPrefixL (chars "inr") (e :: es) = none := stripPrefixL_ws_head (by decide) he
        have g4 : stripPrefixL (chars "₹") (e :: es) = none := stripPrefixL_ws_head (by decide) he
        simp only [currencyKws, List.findSome?_cons, g1, g2, g3, g4, Option.none_bind,
          List.findSome?_nil]
      · have hskip : skipWs (e :: es) = e :: es := by
          unfold skipWs
          rw [List.dropWhile_cons, if_neg he]
        rw [hskip] at h
        obtain ⟨d, s', heq, hd⟩ := matchNum_head_digit h
        have hde : isDigitCh e = true := by
          injection heq with h5 h6
          rw [h5]
          exact hd
        have g1 : stripPrefixL (chars "rs.") (e :: es) = none := by
          rw [show chars "rs." = 'r' :: chars "s." from rfl]
          exact stripPrefixL_head_ne (digit_ne hde (by decide))
        have g2 : stripPrefixL (chars "rs") (e :: es) = none := by
          rw [show chars "rs" = 'r' :: chars "s" from rfl]
          exact stripPrefixL_head_ne (digit_ne hde (by decide))
        have g3 : stripPrefixL (chars "inr") (e :: es) = none := by
          rw [show chars "inr" = 'i' :: chars "nr" from rfl]
          exact stripPrefixL_head_ne (digit_ne hde (by decide))
        have g4 : stripPrefixL (chars "₹") (e :: es) = none := by
          rw [show chars "₹" = '₹' :: ([] : List Char) from rfl]
          exact stripPrefixL_head_ne (digit_ne hde (by decide))
        simp only [currencyKws, List.findSome?_cons, g1, g2, g3, g4, Option.none_bind,
          List.findSome?_nil]
  rw [hcur]
  exact h

theorem findNums_wsOnly : ∀ {s : List Char}, wsOnly s → findNums s = [] := by
  intro s
  induction s with
  | nil => intro _; rfl
  | cons c cs ih =>
    intro hs
    have hc := hs c (List.mem_cons_self _ _)
    have htail : wsOnly cs := fun c' hc' => hs c' (List.mem_cons_of_mem _ hc')
    have hskip : skipWs cs = [] := dropWhile_ws_nil htail
    rw [findNums_eq, tryNum_ws_head hc, hskip]
    show findNums cs = []
    exact ih htail

theorem findNums_ws_cons {c : Char} {s : List Char} (hc : pyIsSpace c = true) :
    findNums (c :: s) = findNums s := by
  rw [findNums_eq (c :: s), tryNum_ws_head hc]
  cases hmn : matchNum (skipWs s) with
  | none => rfl
  | some vr =>
    obtain ⟨v, r⟩ := vr
    show v :: findNums r = findNums s
    rw [findNums_eq s, tryNum_of_matchNum_skipWs hmn]

theorem findNums_ws_front {a : List Char} (ha : wsOnly a) (s : List Char) :
    findNums (a ++ s) = findNums s := by
  induction a with
  | nil => rfl
  | cons w a' ih =>
    have hw : pyIsSpace w = true := ha w (List.mem_cons_self _ _)
    rw [List.cons_append, findNums_ws_cons hw]
    exact ih (fun c hc => ha c (List.mem_cons_of_mem _ hc))

theorem findSome?_congr_map {α β γ : Type} {g : α → Option β} {g' : α → Option γ} {f : β → γ} :
    ∀ {l : List α}, (∀ a ∈ l, g' a = (g a).map f) →
      l.findSome? g' = (l.findSome? g).map f := by
  intro l
  induction l with
  | nil => intro _; rfl
  | cons a as ih =>
    intro hrel
    rw [List.findSome?_cons, List.findSome?_cons, hrel a (List.mem_cons_self _ _)]
    cases g a with
    | some bb => rfl
    | none => exact ih (fun a' ha' => hrel a' (List.mem_cons_of_mem _ ha'))

theorem tryNum_append_ws {b : List Char} (hb : wsOnly b) (x : List Char) :
    tryNum (x ++ b) = (tryNum x).map (fun vr => (vr.1, vr.2 ++ b)) := by
  unfold tryNum
  rw [findSome?_congr_map (g := fun k => (stripPrefixL k x).bind fun r => matchNum (skipWs r))
    (f := fun vr => (vr.1, vr.2 ++ b)) ?hrel]
  case hrel =>
    intro kw hkw
    show ((stripPrefixL kw (x ++ b)).bind fun r => matchNum (skipWs r)) =
      ((stripPrefixL kw x).bind fun r => matchNum (skipWs r)).map
        (fun vr => (vr.1, vr.2 ++ b))
    cases hsp : stripPrefixL kw x with
    | some r =>
      rw [stripPrefixL_some_append hsp]
      show matchNum (skipWs (r ++ b)) = (matchNum (skipWs r)).map _
      rcases skipWs_append_ws (x := r) hb with h1 | ⟨h1, h2⟩
      · rw [h1, matchNum_append_ws hb]
      · rw [h1, h2]
        rfl
    | none =>
      have hlast : lastNonWs kw = true := by
        simp only [currencyKws, List.mem_cons, List.not_mem_nil, or_false] at hkw
        rcases hkw with rfl | rfl | rfl | rfl <;> decide
      rw [stripPrefixL_none_append_ws hb x kw hlast hsp]
      rfl
  cases hF : currencyKws.findSome?
      (fun k => (stripPrefixL k x).bind fun r => matchNum (skipWs r)) with
  | some vr => rfl
  | none =>
    show matchNum (skipWs (x ++ b)) = (matchNum (skipWs x)).map _
    rcases skipWs_append_ws (x := x) hb with h1 | ⟨h1, h2⟩
    · rw [h1, matchNum_append_ws hb]
    · rw [h1, h2]
      rfl

theorem findNums_append_ws {b : List Char} (hb : wsOnly b) :
    ∀ (n : Nat) (x : List Char), x.length ≤ n → findNums (x ++ b) = findNums x := by
  intro n
  induction n with
  | zero =>
    intro x hx
    have hxnil : x = [] := List.eq_nil_of_length_eq_zero (by omega)
    subst hxnil
    simp only [List.nil_append]
    rw [findNums_wsOnly hb]
    rfl
  | succ n ih =>
    intro x hx
    rw [findNums_eq (x ++ b), tryNum_append_ws hb]
    cases htn : tryNum x with
    | some vr =>
      obtain ⟨v, r⟩ := vr
      have hr : r.length < x.length := tryNum_shrinks htn
      show v :: findNums (r ++ b) = findNums x
      rw [findNums_eq x, htn]
      show v :: findNums (r ++ b) = v :: findNums r
      congr 1
      exact ih r (by omega)
    | none =>
      cases x with
      | nil =>
        cases b with
        | nil => rfl
        | cons c t =>
          show findNums t = findNums ([] : List Char)
          rw [findNums_wsOnly (fun c' hc' => hb c' (List.mem_cons_of_mem _ hc'))]
          rfl
      | cons c cs =>
        show findNums (cs ++ b) = findNums (c :: cs)
        rw [findNums_eq (c :: cs), htn]
        show findNums (cs ++ b) = findNums cs
        exact ih cs (by simp only [List.length_cons] at hx; omega)

/-- The fallback scan only sees the stripped text. -/
theorem findNums_strip (s : List Char) : findNums (pyStripL s) = findNums s := by
  obtain ⟨a, b, ha, hb, hdec⟩ := strip_decomp s
  conv_rhs => rw [hdec]
  rw [List.append_assoc, findNums_ws_front ha,
    findNums_append_ws hb (pyStripL s).length _ (le_refl _)]

/-! ### Invariance of the line list under stripping -/

theorem term_is_ws {c : Char} (hc : pyIsTerm c = true) : pyIsSpace c = true := by
  unfold pyIsTerm at hc
  rw [List.contains_iff_exists_mem_beq] at hc
  obtain ⟨a, ha, hba⟩ := hc
  have hceq : c.toNat = a := by simpa using hba
  rw [pyIsSpace_iff, hceq]
  simp only [termCodes, List.mem_cons, List.not_mem_nil, or_false] at ha
  simp only [wsCodes, List.mem_cons, List.not_mem_nil, or_false]
  omega

/-- One step of the line splitter, as a conditional. -/
theorem slGo_cons (c : Char) (rest cur : List Char) :
    slGo (c :: rest) cur =
      if c = '\r' ∧ rest.head? = some '\n' then cur.reverse :: slTail rest.tail
      else if pyIsTerm c = true then cur.reverse :: slTail rest
      else slGo rest (c :: cur) := by
  by_cases h1 : c = '\r' ∧ rest.head? = some '\n'
  · obtain ⟨hc, h2⟩ := h1
    subst hc
    cases rest with
    | nil => simp at h2
    | cons c2 r =>
      have hc2 : c2 = '\n' := by simpa using h2
      subst hc2
      rw [if_pos ⟨rfl, rfl⟩]
      cases r with
      | nil => exact slGo.eq_2 cur
      | cons a b => exact slGo.eq_3 cur a b
  · rw [if_neg h1]
    cases rest with
    | nil =>
      rw [slGo.eq_4 cur c (by rintro r1 _ h; cases h)]
      rfl
    | cons c2 r =>
      have hfalse : ∀ (rest1 : List Char), c = '\r' → c2 :: r = '\n' :: rest1 → False := by
        intro r1 hc hn
        injection hn with hn1 _
        exact h1 ⟨hc, by rw [List.head?_cons, hn1]⟩
      rw [slGo.eq_5 cur c c2 r hfalse]
      rfl

theorem filtStrip_cons (l : List Char) (ls : List (List Char)) :
    filtStrip (l :: ls) =
      if (pyStripL l).isEmpty = true then filtStrip ls
      else pyStripL l :: filtStrip ls := by
  unfold filtStrip
  rw [List.map_cons, List.filter_cons]
  by_cases h : (pyStripL l).isEmpty = true
  · rw [if_pos h, if_neg (by rw [h]; simp)]
  · rw [if_neg h, if_pos (by simpa using h)]

theorem filtStrip_cons_congr {l1 l2 : List Char} (h : pyStripL l1 = pyStripL l2)
    (ls : List (List Char)) : filtStrip (l1 :: ls) = filtStrip (l2 :: ls) := by
  rw [filtStrip_cons, filtStrip_cons, h]

theorem filtStrip_nil_cons (ls : List (List Char)) : filtStrip ([] :: ls) = filtStrip ls := by
  rw [filtStrip_cons, if_pos (show (pyStripL []).isEmpty = true from rfl)]

/-- The accumulator of the line splitter only prefixes the first line. -/
theorem slGo_acc : ∀ (n : Nat) (s : List Char), s.length ≤ n →
    ∃ l0 ls, slGo s [] = l0 :: ls ∧ ∀ cur, slGo s cur = (cur.reverse ++ l0) :: ls := by
  intro n
  induction n with
  | zero =>
    intro s hs
    have : s = [] := List.eq_nil_of_length_eq_zero (by omega)
    subst this
    exact ⟨[], [], rfl, fun cur => by rw [slGo.eq_1, List.append_nil]⟩
  | succ n ih =>
    intro s hs
    cases s with
    | nil => exact ⟨[], [], rfl, fun cur => by rw [slGo.eq_1, List.append_nil]⟩
    | cons c rest =>
      simp only [List.length_cons] at hs
      by_cases h1 : c = '\r' ∧ rest.head? = some '\n'
      · refine ⟨[], slTail rest.tail, ?_, ?_⟩
        · rw [slGo_cons, if_pos h1]
          rfl
        · intro cur
          rw [slGo_cons, if_pos h1, List.append_nil]
      · by_cases hterm : pyIsTerm c = true
        · refine ⟨[], slTail rest, ?_, ?_⟩
          · rw [slGo_cons, if_neg h1, if_pos hterm]
            rfl
          · intro cur
            rw [slGo_cons, if_neg h1, if_pos hterm, List.append_nil]
        · obtain ⟨l0, ls, h0, hall⟩ := ih rest (by omega)
          refine ⟨c :: l0, ls, ?_, ?_⟩
          · rw [slGo_cons, if_neg h1, if_neg hterm]
            have := hall [c]
            rw [this]
            rfl
          · intro cur
            rw [slGo_cons, if_neg h1, if_neg hterm, hall (c :: cur), List.reverse_cons,
              List.append_assoc]
            rfl

/-- All lines of a whitespace-only input strip to nothing. -/
theorem filtStrip_slGo_wsOnly : ∀ (n : Nat) (b : List Char), b.length ≤ n → wsOnly b →
    ∀ cur, filtStrip (slGo b cur) = filtStrip [cur.reverse] := by
  intro n
  induction n with
  | zero =>
    intro b hlen hb cur
    have : b = [] := List.eq_nil_of_length_eq_zero (by omega)
    subst this
    rfl
  | succ n ih =>
    intro b hlen hb cur
    cases b with
    | nil => rfl
    | cons w b' =>
      simp only [List.length_cons] at hlen
      have hw : pyIsSpace w = true := hb w (List.mem_cons_self _ _)
      have hb' : wsOnly b' := fun c hc => hb c (List.mem_cons_of_mem _ hc)
      rw [slGo_cons]
      by_cases h1 : w = '\r' ∧ b'.head? = some '\n'
      · rw [if_pos h1]
        obtain ⟨_, hh⟩ := h1
        cases b' with
        | nil => simp at hh
        | cons c2 b'' =>
          have htail : filtStrip (slTail b'') = [] := by
            cases b'' with
            | nil => rfl
            | cons a r =>
              show filtStrip (slGo (a :: r) []) = []
              rw [ih (a :: r) (by simp only [List.length_cons] at hlen ⊢; omega)
                (fun c hc => hb' c (List.mem_cons_of_mem _ hc)) []]
              rfl
          show filtStrip (cur.reverse :: slTail b'') = filtStrip [cur.reverse]
          rw [filtStrip_cons, filtStrip_cons, htail]
          rfl
      · rw [if_neg h1]
        by_cases hterm : pyIsTerm w = true
        · rw [if_pos hterm]
          have htail : filtStrip (slTail b') = [] := by
            cases b' with
            | nil => rfl
            | cons a r =>
              show filtStrip (slGo (a :: r) []) = []
              rw [ih (a :: r) (by omega) hb' []]
              rfl
          rw [filtStrip_cons, filtStrip_cons, htail]
          rfl
        · rw [if_neg hterm]
          rw [ih b' (by omega) hb' (w :: cur)]
          rw [List.reverse_cons]
          exact filtStrip_cons_congr (pyStripL_append_ws (fun c hc => by
            rcases List.mem_singleton.mp hc with rfl
            exact hw)) []

theorem pyLines_ws_cons {w : Char} (hw : pyIsSpace w = true) (s : List Char) :
    pyLinesL (w :: s) = pyLinesL s := by
  show filtStrip (slGo (w :: s) []) = pyLinesL s
  rw [slGo_cons]
  by_cases h1 : w = '\r' ∧ s.head? = some '\n'
  · rw [if_pos h1]
    obtain ⟨_, hh⟩ := h1
    cases s with
    | nil => simp at hh
    | cons c2 s' =>
      have hc2 : c2 = '\n' := by simpa using hh
      subst hc2
      show filtStrip ([] :: slTail s') = pyLinesL ('\n' :: s')
      rw [filtStrip_nil_cons]
      show filtStrip (slTail s') = filtStrip (slGo ('\n' :: s') [])
      rw [slGo_cons, if_neg (by rintro ⟨h, -⟩; exact absurd h (by decide)),
        if_pos (by decide : pyIsTerm '\n' = true)]
      rw [show (([] : List Char).reverse :: slTail s') = [] :: slTail s' from rfl,
        filtStrip_nil_cons]
  · rw [if_neg h1]
    by_cases hterm : pyIsTerm w = true
    · rw [if_pos hterm]
      show filtStrip ([] :: slTail s) = pyLinesL s
      rw [filtStrip_nil_cons]
      cases s with
      | nil => rfl
      | cons a r => rfl
    · rw [if_neg hterm]
      cases s with
      | nil =>
        show filtStrip (slGo [] [w]) = pyLinesL []
        rw [slGo.eq_1]
        show filtStrip [[w]] = ([] : List (List Char))
        rw [filtStrip_cons,
          if_pos (show (pyStripL [w]).isEmpty = true by rw [pyStripL_cons_ws hw]; rfl)]
        rfl
      | cons a r =>
        obtain ⟨l0, ls, h0, hall⟩ := slGo_acc (a :: r).length (a :: r) (le_refl _)
        rw [hall [w]]
        rw [show pyLinesL (a :: r) = filtStrip (l0 :: ls) from by
          show filtStrip (slGo (a :: r) []) = _
          rw [h0]]
        exact filtStrip_cons_congr (pyStripL_ws_front (a := [w]) (fun c hc => by
          rcases List.mem_singleton.mp hc with rfl
          exact hw)) ls

/-- Appending whitespace-only text does not change the filtered lines. -/
theorem filtStrip_slGo_append_ws : ∀ (n : Nat) (u : List Char), u.length ≤ n →
    ∀ {b : List Char}, wsOnly b → ∀ cur,
      filtStrip (slGo (u ++ b) cur) = filtStrip (slGo u cur) := by
  intro n
  induction n with
  | zero =>
    intro u hu b hb cur
    have : u = [] := List.eq_nil_of_length_eq_zero (by omega)
    subst this
    show filtStrip (slGo b cur) = filtStrip (slGo [] cur)
    rw [filtStrip_slGo_wsOnly b.length b (le_refl _) hb cur, slGo.eq_1]
  | succ n ih =>
    intro u hu b hb cur
    cases u with
    | nil =>
      show filtStrip (slGo b cur) = filtStrip (slGo [] cur)
      rw [filtStrip_slGo_wsOnly b.length b (le_refl _) hb cur, slGo.eq_1]
    | cons c u' =>
      simp only [List.length_cons] at hu
      rw [List.cons_append, slGo_cons, slGo_cons]
      cases u' with
      | nil =>
        rw [List.nil_append]
        have hrnil : ¬(c = '\r' ∧ ([] : List Char).head? = some '\n') := by
          rintro ⟨-, h⟩
          simp at h
        by_cases h1 : c = '\r' ∧ b.head? = some '\n'
        · obtain ⟨rfl, hh⟩ := h1
          rw [if_pos ⟨rfl, hh⟩, if_neg hrnil, if_pos (by decide : pyIsTerm '\r' = true)]
          cases b with
          | nil => simp at hh
          | cons b1 b2 =>
            have htail : filtStrip (slTail b2) = [] := by
              cases b2 with
              | nil => rfl
              | cons a r =>
                show filtStrip (slGo (a :: r) []) = []
                rw [filtStrip_slGo_wsOnly (a :: r).length (a :: r) (le_refl _)
                  (fun x hx => hb x (List.mem_cons_of_mem _ hx)) []]
                rfl
            show filtStrip (cur.reverse :: slTail b2) = filtStrip (cur.reverse :: slTail [])
            rw [filtStrip_cons, filtStrip_cons, htail]
            rfl
        · rw [if_neg h1, if_neg hrnil]
          by_cases hterm : pyIsTerm c = true
          · rw [if_pos hterm, if_pos hterm]
            have htail : filtStrip (slTail b) = [] := by
              cases b with
              | nil => rfl
              | cons a r =>
                show filtStrip (slGo (a :: r) []) = []
                rw [filtStrip_slGo_wsOnly (a :: r).length (a :: r) (le_refl _) hb []]
                rfl
            rw [filtStrip_cons, filtStrip_cons, htail]
            rfl
          · rw [if_neg hterm, if_neg hterm]
            rw [filtStrip_slGo_wsOnly b.length b (le_refl _) hb (c :: cur), slGo.eq_1]
      | cons d u'' =>
        by_cases h1 : c = '\r' ∧ d = '\n'
        · have hcondl : c = '\r' ∧ ((d :: u'') ++ b).head? = some '\n' :=
            ⟨h1.1, show some d = some '\n' by rw [h1.2]⟩
          have hcondr : c = '\r' ∧ (d :: u'').head? = some '\n' :=
            ⟨h1.1, show some d = some '\n' by rw [h1.2]⟩
          rw [if_pos hcondl, if_pos hcondr]
          show filtStrip (cur.reverse :: slTail (u'' ++ b)) =
            filtStrip (cur.reverse :: slTail u'')
          rw [filtStrip_cons, filtStrip_cons]
          have hmid : filtStrip (slTail (u'' ++ b)) = filtStrip (slTail u'') := by
            cases u'' with
            | nil =>
              show filtStrip (slTail b) = filtStrip (slTail ([] : List Char))
              cases b with
              | nil => rfl
              | cons a r =>
                show filtStrip (slGo (a :: r) []) = filtStrip ([] : List (List Char))
                rw [filtStrip_slGo_wsOnly (a :: r).length (a :: r) (le_refl _) hb []]
                rfl
            | cons a r =>
              show filtStrip (slGo ((a :: r) ++ b) []) = filtStrip (slGo (a :: r) [])
              exact ih (a :: r) (by simp only [List.length_cons] at hu ⊢; omega) hb []
          rw [hmid]
        · have hcondl : ¬(c = '\r' ∧ ((d :: u'') ++ b).head? = some '\n') := by
            rintro ⟨hc, hh⟩
            have hh' : some d = some '\n' := hh
            exact h1 ⟨hc, Option.some.inj hh'⟩
          have hcondr : ¬(c = '\r' ∧ (d :: u'').head? = some '\n') := by
            rintro ⟨hc, hh⟩
            have hh' : some d = some '\n' := hh
            exact h1 ⟨hc, Option.some.inj hh'⟩
          rw [if_neg hcondl, if_neg hcondr]
          by_cases hterm : pyIsTerm c = true
          · rw [if_pos hterm, if_pos hterm]
            show filtStrip (cur.reverse :: slGo (d :: (u'' ++ b)) []) =
              filtStrip (cur.reverse :: slGo (d :: u'') [])
            rw [filtStrip_cons, filtStrip_cons]
            have hmid : filtStrip (slGo (d :: (u'' ++ b)) []) =
                filtStrip (slGo (d :: u'') []) := by
              rw [← List.cons_append]
              exact ih (d :: u'') (by omega) hb []
            rw [hmid]
          · rw [if_neg hterm, if_neg hterm]
            show filtStrip (slGo (d :: (u'' ++ b)) (c :: cur)) =
              filtStrip (slGo (d :: u'') (c :: cur))
            rw [← List.cons_append]
            exact ih (d :: u'') (by omega) hb (c :: cur)

theorem pyLines_ws_front : ∀ {a : List Char}, wsOnly a → ∀ (s : List Char),
    pyLinesL (a ++ s) = pyLinesL s := by
  intro a
  induction a with
  | nil => intro _ s; rfl
  | cons w a' ih =>
    intro ha s
    rw [List.cons_append, pyLines_ws_cons (ha w (List.mem_cons_self _ _))]
    exact ih (fun c hc => ha c (List.mem_cons_of_mem _ hc)) s

theorem pyLines_append_ws {b : List Char} (hb : wsOnly b) (u : List Char) :
    pyLinesL (u ++ b) = pyLinesL u := by
  cases u with
  | nil =>
    show pyLinesL b = pyLinesL []
    cases b with
    | nil => rfl
    | cons c t =>
      show filtStrip (slGo (c :: t) []) = ([] : List (List Char))
      rw [filtStrip_slGo_wsOnly (c :: t).length (c :: t) (le_refl _) hb []]
      rfl
  | cons c u' =>
    show filtStrip (slGo ((c :: u') ++ b) []) = filtStrip (slGo (c :: u') [])
    exact filtStrip_slGo_append_ws (c :: u').length (c :: u') (le_refl _) hb []

/-- The line list only sees the stripped text. -/
theorem pyLines_strip (s : List Char) : pyLinesL (pyStripL s) = pyLinesL s := by
  obtain ⟨a, b, ha, hb, hdec⟩ := strip_decomp s
  conv_rhs => rw [hdec]
  rw [List.append_assoc, pyLines_ws_front ha, pyLines_append_ws hb]

/-! ### Claim theorems (except the idempotence claim, treated later) -/

/-- Claim C1, counterexample.  The claim states that any text containing the
lines `"MRP: 120"` and `"Sell Price 90"` parses to `mrp = 120.0` and
`sell_price = 90.0` regardless of any other numeric tokens.  The text
`"MRP: 120\nSell Price 90\n45"` contains both lines, yet `sell_price` is
`45.0`: the sell keyword pattern does not match `"Sell Price 90"` (the word
`price` stands between `sell` and the number), so `sell_price` is taken from
the fallback pool minimum, which the extra token `45` lowers. -/
theorem c1_keyword_priority_cex :
    pyLinesL (chars "MRP: 120\nSell Price 90\n45") =
      [chars "MRP: 120", chars "Sell Price 90", chars "45"] ∧
    (parse_price "MRP: 120\nSell Price 90\n45").mrp = some 120 ∧
    (parse_price "MRP: 120\nSell Price 90\n45").sell_price = some 45 ∧
    (parse_price "MRP: 120\nSell Price 90\n45").sell_price ≠ some 90 := by
  refine ⟨by decide, by decide, by decide, by decide⟩

/-- Claim C1, amended.  For the two-line input `"MRP: 120\nSell Price 90"`
itself, `parse` returns `mrp = 120.0` and `sell_price = 90.0`; `mrp` comes
from the MRP keyword match, but `sell_price` comes from the fallback pool
(the sell keyword search finds nothing), so the result is not stable under
additional numeric tokens below 90. -/
theorem c1_keyword_priority_amended :
    (parse_price "MRP: 120\nSell Price 90").mrp = some 120 ∧
    (parse_price "MRP: 120\nSell Price 90").sell_price = some 90 ∧
    number_after mrpKws (pyLowerL (chars "MRP: 120\nSell Price 90")) = some 120 ∧
    number_after sellKws (pyLowerL (chars "MRP: 120\nSell Price 90")) = none := by
  refine ⟨by decide, by decide, by decide, by decide⟩

/-- Claim C2, counterexample.  The claim states that whenever the MRP keyword
pattern matches a numeric token, the `mrp` field equals that token's value,
"in particular a matched token such as `00` yields `mrp = 0.0` from the
keyword match, not from the fallback pool".  On `"mrp: 00 500"` the keyword
pattern matches the token `00` (value `0.0`), but the source's `or None`
coercion (line 104) discards the falsy `0.0`, so `mrp` is taken from the
fallback pool and equals `500.0`, not `0.0`. -/
theorem c2_mrp_keyword_zero_cex :
    number_after mrpKws (pyLowerL (chars "mrp: 00 500")) = some 0 ∧
    (parse_price "mrp: 00 500").mrp = some 500 ∧
    (parse_price "mrp: 00 500").mrp ≠ some 0 := by
  refine ⟨by decide, by decide, by decide⟩

/-- Claim C2, amended: if the MRP keyword pattern matches and the first
matched token parses to a nonzero value `v`, then `mrp = v`; a matched token
parsing to `0.0` is discarded by the `or None` coercion and `mrp` falls back
to the candidate pool. -/
theorem c2_mrp_keyword_match (t : String) (v : ℚ)
    (h : number_after mrpKws (pyLowerL t.data) = some v) (hv : v ≠ 0) :
    (parse_price t).mrp = some v := by
  rw [parse_price_mrp, h]
  simp [orNone, hv]

/-- Witness for `c2_mrp_keyword_match` at the input `"mrp 120"`. -/
theorem c2_mrp_keyword_match_witness :
    number_after mrpKws (pyLowerL ("mrp 120" : String).data) = some 120 ∧
    (120 : ℚ) ≠ 0 ∧ (parse_price "mrp 120").mrp = some 120 :=
  ⟨by decide, by decide, c2_mrp_keyword_match "mrp 120" 120 (by decide) (by decide)⟩

/-- Claim C3 (invariant): if neither field was assigned at the keyword steps
(the `or None`-coerced keyword matches are both `None`) and both `mrp` and
`sell_price` are present in the result — so both were assigned from the
fallback candidate pool — then `sell_price ≤ mrp`. -/
theorem c3_fallback_sell_le_mrp (t : String) (m s : ℚ)
    (hm : orNone (number_after mrpKws (pyLowerL t.data)) = none)
    (hs : orNone (number_after sellKws (pyLowerL t.data)) = none)
    (hmrp : (parse_price t).mrp = some m)
    (hsell : (parse_price t).sell_price = some s) :
    s ≤ m := by
  rw [parse_price_mrp, hm] at hmrp
  rw [parse_price_sell, hm, hs] at hsell
  by_cases hc : candidatesOf (findNums (pyLowerL t.data)) = []
  · rw [if_neg (by simp [hc])] at hmrp
    exact absurd hmrp (by simp)
  · rw [if_pos ⟨rfl, hc⟩] at hmrp
    rw [if_pos ⟨rfl, hc⟩] at hsell
    rw [show (if none = none ∧ candidatesOf (findNums (pyLowerL t.data)) ≠ [] then
          listMax (candidatesOf (findNums (pyLowerL t.data))) else (none : Option ℚ)) =
        listMax (candidatesOf (findNums (pyLowerL t.data))) from if_pos ⟨rfl, hc⟩] at hsell
    by_cases hb : pyTruthy (listMax (candidatesOf (findNums (pyLowerL t.data)))) = true ∧
        1 < (candidatesOf (findNums (pyLowerL t.data))).length
    · rw [if_pos hb] at hsell
      exact listMax_ge hmrp s (listMin_mem hsell)
    · rw [if_neg hb] at hsell
      exact listMax_ge hmrp s (mem_of_getLast? hsell)

/-- Witness for `c3_fallback_sell_le_mrp` at the input `"20 70"`: no keyword
matches, the pool is `{20, 70}`, and the parsed fields are `70` and `20`. -/
theorem c3_fallback_sell_le_mrp_witness :
    orNone (number_after mrpKws (pyLowerL ("20 70" : String).data)) = none ∧
    orNone (number_after sellKws (pyLowerL ("20 70" : String).data)) = none ∧
    (parse_price "20 70").mrp = some 70 ∧
    (parse_price "20 70").sell_price = some 20 ∧ (20 : ℚ) ≤ 70 :=
  ⟨by decide, by decide, by decide, by decide,
    c3_fallback_sell_le_mrp "20 70" 70 20 (by decide) (by decide) (by decide) (by decide)⟩

/-- Claim C4 (totality): `parse_price` is a total Lean function — every
sub-step of the embedding is total, mirroring the source where no reachable
branch raises (`float` is only applied to well-formed decimal literals) —
and the `raw_text` field always equals the whitespace-trimmed input. -/
theorem c4_raw_text_trimmed (t : String) : (parse_price t).raw_text = pyStrip t := rfl

/-- Claim C5 (fallback ordering): with no keyword match on either side and a
fallback pool of exactly `{45, 99}`, the result is `mrp = 99` (pool maximum)
and `sell_price = 45` (pool minimum). -/
theorem c5_fallback_ordering (t : String)
    (hm : orNone (number_after mrpKws (pyLowerL t.data)) = none)
    (hs : orNone (number_after sellKws (pyLowerL t.data)) = none)
    (hc : candidatesOf (findNums (pyLowerL t.data)) = [45, 99]) :
    (parse_price t).mrp = some 99 ∧ (parse_price t).sell_price = some 45 := by
  rw [parse_price_mrp, parse_price_sell, hm, hs, hc]
  refine ⟨by decide, by decide⟩

/-- Witness for `c5_fallback_ordering` at the input `"45 99"`. -/
theorem c5_fallback_ordering_witness :
    orNone (number_after mrpKws (pyLowerL ("45 99" : String).data)) = none ∧
    orNone (number_after sellKws (pyLowerL ("45 99" : String).data)) = none ∧
    candidatesOf (findNums (pyLowerL ("45 99" : String).data)) = [45, 99] ∧
    (parse_price "45 99").mrp = some 99 ∧ (parse_price "45 99").sell_price = some 45 :=
  ⟨by decide, by decide, by decide,
    (c5_fallback_ordering "45 99" (by decide) (by decide) (by decide)).1,
    (c5_fallback_ordering "45 99" (by decide) (by decide) (by decide)).2⟩

/-- Claim C6 (single-number collapse): with no keyword match on either side
and a fallback pool of exactly `{199}`, both fields collapse to `199`. -/
theorem c6_single_number_collapse (t : String)
    (hm : orNone (number_after mrpKws (pyLowerL t.data)) = none)
    (hs : orNone (number_after sellKws (pyLowerL t.data)) = none)
    (hc : candidatesOf (findNums (pyLowerL t.data)) = [199]) :
    (parse_price t).mrp = some 199 ∧ (parse_price t).sell_price = some 199 := by
  rw [parse_price_mrp, parse_price_sell, hm, hs, hc]
  refine ⟨by decide, by decide⟩

/-- Witness for `c6_single_number_collapse` at the input `"199"`. -/
theorem c6_single_number_collapse_witness :
    orNone (number_after mrpKws (pyLowerL ("199" : String).data)) = none ∧
    orNone (number_after sellKws (pyLowerL ("199" : String).data)) = none ∧
    candidatesOf (findNums (pyLowerL ("199" : String).data)) = [199] ∧
    (parse_price "199").mrp = some 199 ∧ (parse_price "199").sell_price = some 199 :=
  ⟨by decide, by decide, by decide,
    (c6_single_number_collapse "199" (by decide) (by decide) (by decide)).1,
    (c6_single_number_collapse "199" (by decide) (by decide) (by decide)).2⟩

/-- Claim C7 (name-skip rule): whenever the first two non-empty trimmed lines
of the input are `"MRP ₹150"` and `"Lavender Soap"`, the name resolves to
`"Lavender Soap"`: the first line is skipped (its lower-cased form contains
`"mrp"`, among others) and the second contains a letter. -/
theorem c7_name_skip (t : String) (rest : List (List Char))
    (h : pyLinesL t.data = chars "MRP ₹150" :: chars "Lavender Soap" :: rest) :
    (parse_price t).name = some "Lavender Soap" := by
  rw [parse_price_name, h]
  show (nameGuess (chars "MRP ₹150" :: chars "Lavender Soap" :: rest.take 1)).map String.mk =
    some "Lavender Soap"
  rw [show nameGuess (chars "MRP ₹150" :: chars "Lavender Soap" :: rest.take 1) =
      nameGuess (chars "Lavender Soap" :: rest.take 1) from
    by rw [nameGuess]; rw [if_pos (by decide)]]
  rw [show nameGuess (chars "Lavender Soap" :: rest.take 1) =
      some (pyStripL (chars "Lavender Soap")) from
    by rw [nameGuess]; rw [if_neg (by decide), if_pos (by decide)]]
  decide

/-- Witness for `c7_name_skip` at the two-line input itself. -/
theorem c7_name_skip_witness :
    pyLinesL ("MRP ₹150\nLavender Soap" : String).data =
      chars "MRP ₹150" :: chars "Lavender Soap" :: [] ∧
    (parse_price "MRP ₹150\nLavender Soap").name = some "Lavender Soap" :=
  ⟨by decide, c7_name_skip "MRP ₹150\nLavender Soap" [] (by decide)⟩

/-- Claim C9: on the keyword-free input `"12345678"` (one run of more than
six digits), the fallback scan greedily takes a six-digit prefix and resumes
on the remainder, so the pool is `{123456, 78}` — values that never occur as
standalone 2-6 digit tokens in the text — and they become `mrp` and
`sell_price`. -/
theorem c9_greedy_digit_run :
    findNums (pyLowerL (chars "12345678")) = [123456, 78] ∧
    (parse_price "12345678").mrp = some 123456 ∧
    (parse_price "12345678").sell_price = some 78 := by
  refine ⟨by decide, by decide, by decide⟩

/-- Claim C10: on the single-line input `"Crisp 45"` the sell keyword `"sp"`
matches inside the word `Crisp`, so `sell_price = 45.0` comes from the
keyword match of Step 3, not from the fallback pool. -/
theorem c10_sp_substring :
    containsSub (chars "sp") (pyLowerL (chars "Crisp")) = true ∧
    number_after sellKws (pyLowerL (chars "Crisp 45")) = some 45 ∧
    (parse_price "Crisp 45").sell_price = some 45 := by
  refine ⟨by decide, by decide, by decide⟩

/-! ### The idempotence claim -/

theorem OCRResult_ext {a b : OCRResult} (h1 : a.raw_text = b.raw_text)
    (h2 : a.name = b.name) (h3 : a.mrp = b.mrp) (h4 : a.sell_price = b.sell_price) :
    a = b := by
  cases a with
  | mk r n m s =>
    cases b with
    | mk r' n' m' s' =>
      have e1 : r = r' := h1
      have e2 : n = n' := h2
      have e3 : m = m' := h3
      have e4 : s = s' := h4
      rw [e1, e2, e3, e4]

/-- Claim C8 (idempotence): re-parsing the `raw_text` of a result reproduces
the result exactly — the same `name`, `mrp` and `sell_price`, and the same
`raw_text` (stripping is idempotent, and every scanner of the parser is
invariant under removal of the leading and trailing whitespace that
stripping deletes). -/
theorem c8_parse_idempotent (t : String) :
    parse_price ((parse_price t).raw_text) = parse_price t := by
  have hkm : kwsOK mrpKws := by unfold kwsOK; decide
  have hks : kwsOK sellKws := by unfold kwsOK; decide
  have hdata : ((parse_price t).raw_text).data = pyStripL t.data := rfl
  have hlow : pyLowerL ((parse_price t).raw_text).data = pyStripL (pyLowerL t.data) := by
    rw [hdata]
    exact lower_strip_comm t.data
  have hm : number_after mrpKws (pyLowerL ((parse_price t).raw_text).data) =
      number_after mrpKws (pyLowerL t.data) := by
    rw [hlow]
    exact searchKws_strip hkm (pyLowerL t.data)
  have hs : number_after sellKws (pyLowerL ((parse_price t).raw_text).data) =
      number_after sellKws (pyLowerL t.data) := by
    rw [hlow]
    exact searchKws_strip hks (pyLowerL t.data)
  have hn : findNums (pyLowerL ((parse_price t).raw_text).data) =
      findNums (pyLowerL t.data) := by
    rw [hlow]
    exact findNums_strip (pyLowerL t.data)
  have hl : pyLinesL ((parse_price t).raw_text).data = pyLinesL t.data := by
    rw [hdata]
    exact pyLines_strip t.data
  have f1 : (parse_price ((parse_price t).raw_text)).raw_text = (parse_price t).raw_text := by
    show String.mk (pyStripL ((parse_price t).raw_text).data) = String.mk (pyStripL t.data)
    rw [hdata, pyStripL_idem]
  have f2 : (parse_price ((parse_price t).raw_text)).name = (parse_price t).name := by
    rw [parse_price_name, parse_price_name, hl]
  have f3 : (parse_price ((parse_price t).raw_text)).mrp = (parse_price t).mrp := by
    rw [parse_price_mrp, parse_price_mrp, hm, hn]
  have f4 : (parse_price ((parse_price t).raw_text)).sell_price =
      (parse_price t).sell_price := by
    rw [parse_price_sell, parse_price_sell, hm, hs, hn]
  exact OCRResult_ext f1 f2 f3 f4

end ShopOCR
